import Mathlib

/-!
Run-length codec of `main.cpp`

A shallow embedding of `rle_compress`, `rle_decompress`, `calculate_entropy` and
`calculate_average_code_length` from `src/main.cpp`.

* A `vector<unsigned char>` is a `List Byte` with `Byte = Fin 256`.
* The `int` / `size_t` index variables (`i`, `count`, `j`, `k`) are natural numbers:
  no index computed by the two functions exceeds `size() + channels`, so this is
  exact for vectors whose size stays inside the range of `int`. The one narrowing
  conversion of the source, `push_back(count)` of an `int` into an `unsigned char`, is
  the explicit `count % 256` of `toByte`.
* `operator[]` outside the vector and `memcmp` over a window that leaves the vector are
  undefined behaviour in the source; the embedding reports them as `Outcome.outOfBounds`.
* The `for`/`while` loops whose termination depends on the data are driven by a fuel
  argument; `Outcome.outOfFuel` means the loop was still running when the fuel ran out.
* The parameters `width` and `height` of the two codec functions are never read by
  their bodies and are left out; the `cout` progress lines are not modelled.
* The two statistics functions are read over the real numbers: a `double` is a real,
  `log2` is `Real.logb 2`, the `int` histogram counts and the product
  `width * height * channels` are natural numbers. A division whose divisor is zero is
  reported as `StatResult.divisionByZero`.
-/

namespace RleImage

/-- One `unsigned char`. -/
abbrev Byte := Fin 256

/-- Result of running a piece of the source: a returned value, an access outside a
vector (undefined behaviour in C++), or a loop that has not finished within the fuel. -/
inductive Outcome (α : Type) where
  | ok (val : α)
  | outOfBounds
  | outOfFuel
  deriving DecidableEq, Repr

/-- Conversion `int → unsigned char` performed by `push_back(count)`. -/
def toByte (n : Nat) : Byte := ⟨n % 256, Nat.mod_lt n (by decide)⟩

/-- The call `memcmp(&v[a], &v[b], n) == 0`: both `n`-byte windows must lie inside the
vector, and the answer is whether they hold the same bytes. -/
def memcmp (v : List Byte) (a b n : Nat) : Outcome Bool :=
  if a + n ≤ v.length ∧ b + n ≤ v.length then
    Outcome.ok (decide ((v.drop a).take n = (v.drop b).take n))
  else Outcome.outOfBounds

/-- The inner `while` loop of `rle_compress` (line 71), started with the current value
of `count`; returns the final `count`. The three conjuncts are evaluated left to right
with short-circuiting, as `&&` does. -/
def run_length : Nat → List Byte → Nat → Nat → Nat → Outcome Nat
  | 0, _, _, _, _ => Outcome.outOfFuel
  | fuel + 1, image, channels, i, count =>
    if i + count * channels < image.length then
      match memcmp image i (i + count * channels) channels with
      | Outcome.ok true =>
        if count < 255 then run_length fuel image channels i (count + 1)
        else Outcome.ok count
      | Outcome.ok false => Outcome.ok count
      | Outcome.outOfBounds => Outcome.outOfBounds
      | Outcome.outOfFuel => Outcome.outOfFuel
    else Outcome.ok count

/-- The loop `for (j = 0; j < n; j++) out.push_back(src[base + j])`, entered with the
current `j` and `n - j` iterations left (lines 76-79 and 94-97). -/
def push_pixel (src : List Byte) (base : Nat) : Nat → Nat → List Byte → Outcome (List Byte)
  | 0, _, out => Outcome.ok out
  | left + 1, j, out =>
    match src[base + j]? with
    | some b => push_pixel src base left (j + 1) (out ++ [b])
    | none => Outcome.outOfBounds

/-- The outer `for` loop of `rle_compress` (lines 68-81), entered with the current `i`
and the bytes emitted so far. -/
def compress_loop : Nat → List Byte → Nat → Nat → List Byte → Outcome (List Byte)
  | 0, _, _, _, _ => Outcome.outOfFuel
  | fuel + 1, image, channels, i, out =>
    if i < image.length then
      match run_length fuel image channels i 1 with
      | Outcome.ok count =>
        match push_pixel image i channels 0 (out ++ [toByte count]) with
        | Outcome.ok out2 =>
          compress_loop fuel image channels (i + (count - 1) * channels + channels) out2
        | Outcome.outOfBounds => Outcome.outOfBounds
        | Outcome.outOfFuel => Outcome.outOfFuel
      | Outcome.outOfBounds => Outcome.outOfBounds
      | Outcome.outOfFuel => Outcome.outOfFuel
    else Outcome.ok out

/-- Embedding of `rle_compress(image, width, height, channels)`. -/
def rle_compress (fuel : Nat) (image : List Byte) (channels : Nat) : Outcome (List Byte) :=
  compress_loop fuel image channels 0 []

/-- The loop `for (j = 0; j < count; j++)` of `rle_decompress` (lines 92-98): `count`
copies of the `channels` bytes that start at `base`. -/
def repeat_pixel (src : List Byte) (base channels : Nat) :
    Nat → List Byte → Outcome (List Byte)
  | 0, out => Outcome.ok out
  | left + 1, out =>
    match push_pixel src base channels 0 out with
    | Outcome.ok out2 => repeat_pixel src base channels left out2
    | Outcome.outOfBounds => Outcome.outOfBounds
    | Outcome.outOfFuel => Outcome.outOfFuel

/-- The outer `for` loop of `rle_decompress` (lines 89-99), entered with the current
`i` and the bytes produced so far. -/
def decompress_loop : Nat → List Byte → Nat → Nat → List Byte → Outcome (List Byte)
  | 0, _, _, _, _ => Outcome.outOfFuel
  | fuel + 1, compressed_image, channels, i, image =>
    match compressed_image[i]? with
    | some count =>
      match repeat_pixel compressed_image (i + 1) channels count.val image with
      | Outcome.ok image2 =>
        decompress_loop fuel compressed_image channels (i + (channels + 1)) image2
      | Outcome.outOfBounds => Outcome.outOfBounds
      | Outcome.outOfFuel => Outcome.outOfFuel
    | none => Outcome.ok image

/-- Embedding of `rle_decompress(compressed_image, width, height, channels)`. -/
def rle_decompress (fuel : Nat) (compressed_image : List Byte) (channels : Nat) :
    Outcome (List Byte) :=
  decompress_loop fuel compressed_image channels 0 []

/-! ## Reference view: a buffer as a list of pixels, a stream as a list of records -/

/-- Number of leading pixels of `qs` equal to `p`, counting at most `cap` of them. -/
def spanRun (p : List Byte) : Nat → List (List Byte) → Nat
  | 0, _ => 0
  | _ + 1, [] => 0
  | cap + 1, q :: qs => if q = p then spanRun p cap qs + 1 else 0

/-- Records `count :: pixel` of the greedy scan over a list of pixels; the first
argument bounds the number of records. -/
def runs : Nat → List (List Byte) → List (List Byte)
  | 0, _ => []
  | _ + 1, [] => []
  | n + 1, p :: ps =>
    (toByte (spanRun p 254 ps + 1) :: p) :: runs n (ps.drop (spanRun p 254 ps))

/-- Cut `s` into consecutive pieces of `n` elements; the first argument bounds the
number of pieces. -/
def chunked (n : Nat) : Nat → List Byte → List (List Byte)
  | 0, _ => []
  | fuel + 1, s => if s = [] then [] else s.take n :: chunked n fuel (s.drop n)

/-- The stream `s` split into consecutive records of `1 + channels` bytes. -/
def records (channels : Nat) (s : List Byte) : List (List Byte) :=
  chunked (1 + channels) s.length s

/-- The count byte of a record, as a number (`0` for an empty list). -/
def record_count (r : List Byte) : Nat :=
  match r with
  | [] => 0
  | count :: _ => count.val

/-- The pixel bytes of a record: everything after the count byte. -/
def record_pixel (r : List Byte) : List Byte := r.drop 1

/-- One record `[count, p_1, .., p_c]` expanded: the pixel repeated `count` times. -/
def expand_record (r : List Byte) : List Byte :=
  (List.replicate (record_count r) (record_pixel r)).flatten

/-- Reference decoder, following the wording of the specification: the
concatenation over the records of each pixel repeated `count` times. -/
def decode_reference (channels : Nat) (s : List Byte) : List Byte :=
  ((records channels s).map expand_record).flatten

/-! ## Stream statistics, with the `double` arithmetic read over the real numbers -/

/-- Result of a statistics computation: a number, a read outside the vector, or a
division whose divisor is zero. -/
inductive StatResult where
  | value (x : ℝ)
  | outOfBounds
  | divisionByZero

/-- The loop `for (i = 0; i < total; i++) histogram[image[i]]++` (lines 106-109 and
126-129), entered with the current `i` and `total - i` iterations left; `none` is a
read outside `image`. -/
def histogram_loop (image : List Byte) : Nat → Nat → (Byte → Nat) → Option (Byte → Nat)
  | 0, _, histogram => some histogram
  | left + 1, i, histogram =>
    match image[i]? with
    | some b =>
      histogram_loop image left (i + 1) (Function.update histogram b (histogram b + 1))
    | none => none

/-- The value `static_cast<double>(histogram[i]) / (width * height * channels)`. -/
noncomputable def probability (count total : Nat) : ℝ := (count : ℝ) / (total : ℝ)

/-- The bucket loop of `calculate_entropy` (lines 111-119) over the bucket indices
still to visit, with the current value of `entropy`. -/
noncomputable def entropy_loop (histogram : Byte → Nat) (total : Nat) :
    List Byte → ℝ → StatResult
  | [], entropy => StatResult.value entropy
  | i :: rest, entropy =>
    if histogram i = 0 then entropy_loop histogram total rest entropy
    else if total = 0 then StatResult.divisionByZero
    else entropy_loop histogram total rest
      (entropy - probability (histogram i) total * Real.logb 2 (probability (histogram i) total))

/-- Embedding of `calculate_entropy(image, width, height, channels)`. -/
noncomputable def calculate_entropy (image : List Byte) (width height channels : Nat) :
    StatResult :=
  match histogram_loop image (width * height * channels) 0 (fun _ => 0) with
  | some histogram =>
    entropy_loop histogram (width * height * channels) (List.finRange 256) 0
  | none => StatResult.outOfBounds

/-- The bucket loop of `calculate_average_code_length` (lines 131-139), with the
current value of `average_code_length`; both divisions, by the total and `1 / p`, are
checked for a zero divisor. -/
noncomputable def average_loop (histogram : Byte → Nat) (total : Nat) :
    List Byte → ℝ → StatResult
  | [], average_code_length => StatResult.value average_code_length
  | i :: rest, average_code_length =>
    if histogram i = 0 then average_loop histogram total rest average_code_length
    else if total = 0 then StatResult.divisionByZero
    else if probability (histogram i) total = 0 then StatResult.divisionByZero
    else average_loop histogram total rest
      (average_code_length + probability (histogram i) total *
        (1 + Real.logb 2 (1 / probability (histogram i) total)))

/-- Embedding of `calculate_average_code_length(image, width, height, channels)`. -/
noncomputable def calculate_average_code_length (image : List Byte)
    (width height channels : Nat) : StatResult :=
  match histogram_loop image (width * height * channels) 0 (fun _ => 0) with
  | some histogram =>
    average_loop histogram (width * height * channels) (List.finRange 256) 0
  | none => StatResult.outOfBounds

/-- The quotient `entropy / average_code_length` printed by `main` (lines 168-172). -/
noncomputable def coding_efficiency (image : List Byte) (width height channels : Nat) :
    StatResult :=
  match calculate_entropy image width height channels,
    calculate_average_code_length image width height channels with
  | StatResult.value entropy, StatResult.value average_code_length =>
    if average_code_length = 0 then StatResult.divisionByZero
    else StatResult.value (entropy / average_code_length)
  | StatResult.value _, StatResult.outOfBounds => StatResult.outOfBounds
  | StatResult.value _, StatResult.divisionByZero => StatResult.divisionByZero
  | StatResult.outOfBounds, _ => StatResult.outOfBounds
  | StatResult.divisionByZero, _ => StatResult.divisionByZero

/-- Reference entropy, following the wording of the specification: minus the sum, over
the byte values `v` occurring in `d`, of `p_v * log2 p_v` with `p_v = count_v / length`. -/
noncomputable def entropy_reference (d : List Byte) : ℝ :=
  -∑ v ∈ Finset.univ.filter (fun v : Byte => 0 < d.count v),
    ((d.count v : ℝ) / (d.length : ℝ)) * Real.logb 2 ((d.count v : ℝ) / (d.length : ℝ))

/-! ## Lists of equal-length pieces -/

theorem length_flatten_of_uniform (n : Nat) (ps : List (List Byte))
    (h : ∀ p ∈ ps, p.length = n) : ps.flatten.length = ps.length * n := by
  induction ps with
  | nil => simp
  | cons p ps ih =>
    have hp : p.length = n := h p (List.mem_cons_self _ _)
    have := ih (fun q hq => h q (List.mem_cons_of_mem _ hq))
    simp only [List.flatten_cons, List.length_append, List.length_cons, hp, this]
    rw [Nat.succ_mul]; omega

theorem window_eq (A q B : List Byte) (a n : Nat) (ha : A.length = a) (hn : q.length = n) :
    ((A ++ q ++ B).drop a).take n = q := by
  subst ha; subst hn
  rw [List.append_assoc, List.drop_left, List.take_left]

theorem getElem?_window (A q B : List Byte) (a j : Nat) (ha : A.length = a)
    (hj : j < q.length) : (A ++ q ++ B)[a + j]? = q[j]? := by
  subst ha
  rw [List.append_assoc, List.getElem?_append_right (by omega)]
  rw [List.getElem?_append_left (by omega)]
  congr 1; omega

/-- Every list whose length is a multiple of `n > 0` is a concatenation of pieces of
length `n`. -/
theorem exists_uniform_pieces (n : Nat) :
    ∀ (k : Nat) (s : List Byte), s.length = k * n →
      ∃ ps : List (List Byte), (∀ p ∈ ps, p.length = n) ∧ ps.length = k ∧ ps.flatten = s := by
  intro k
  induction k with
  | zero =>
    intro s hs
    refine ⟨[], by simp, rfl, ?_⟩
    have : s.length = 0 := by simpa using hs
    simp [List.length_eq_zero.mp this]
  | succ k ih =>
    intro s hs
    have hlen : (s.drop n).length = k * n := by
      rw [List.length_drop, hs, Nat.succ_mul]; omega
    obtain ⟨ps, hps, hk, hfl⟩ := ih (s.drop n) hlen
    refine ⟨s.take n :: ps, ?_, by simp [hk], ?_⟩
    · intro p hp
      rcases List.mem_cons.mp hp with h | h
      · subst h
        rw [List.length_take, hs, Nat.succ_mul]; omega
      · exact hps p h
    · rw [List.flatten_cons, hfl, List.take_append_drop]

theorem exists_pixels_of_mod (n : Nat) (s : List Byte) (hs : s.length % n = 0) :
    ∃ ps : List (List Byte), (∀ p ∈ ps, p.length = n) ∧ ps.length = s.length / n ∧
      ps.flatten = s := by
  apply exists_uniform_pieces n (s.length / n) s
  have := Nat.div_add_mod s.length n
  rw [hs, Nat.mul_comm] at this
  omega

/-! ## The copy loops -/

theorem push_pixel_ok (src : List Byte) (base : Nat) :
    ∀ (n j : Nat) (out : List Byte), base + j + n ≤ src.length →
      push_pixel src base n j out = Outcome.ok (out ++ (src.drop (base + j)).take n) := by
  intro n
  induction n with
  | zero => intro j out _; simp [push_pixel]
  | succ n ih =>
    intro j out h
    have hlt : base + j < src.length := by omega
    rw [push_pixel, List.getElem?_eq_getElem hlt]
    simp only
    rw [ih (j + 1) (out ++ [src[base + j]]) (by omega)]
    rw [List.drop_eq_getElem_cons hlt, List.take_succ_cons]
    simp [Nat.add_assoc]

theorem repeat_pixel_ok (src : List Byte) (base channels : Nat)
    (h : base + channels ≤ src.length) :
    ∀ (n : Nat) (out : List Byte),
      repeat_pixel src base channels n out =
        Outcome.ok (out ++ (List.replicate n ((src.drop base).take channels)).flatten) := by
  intro n
  induction n with
  | zero => intro out; simp [repeat_pixel]
  | succ n ih =>
    intro out
    rw [repeat_pixel, push_pixel_ok src base channels 0 out (by omega)]
    simp only
    rw [ih]
    simp [List.replicate_succ]

/-! ## The scan of `rle_compress` on a well-formed buffer -/

theorem spanRun_le_length (p : List Byte) :
    ∀ (cap : Nat) (qs : List (List Byte)), spanRun p cap qs ≤ qs.length := by
  intro cap
  induction cap with
  | zero => intro qs; simp [spanRun]
  | succ cap ih =>
    intro qs
    cases qs with
    | nil => simp [spanRun]
    | cons q qs =>
      simp only [spanRun, List.length_cons]
      split
      · have := ih qs; omega
      · omega

theorem spanRun_nil (p : List Byte) (cap : Nat) : spanRun p cap [] = 0 := by
  cases cap <;> rfl

/-- The inner loop at a pixel boundary: the buffer is `pre`, then the pixel `p`, the
pixels `qs` and a partial pixel `tail` (empty for a well-formed buffer). Entered with
`count = j + 1`, the loop stops at `j + 1` plus the number of pixels equal to `p` that
follow the first `j`, the total capped at 255; with a non-empty `tail` it may instead
compare a window that leaves the buffer. -/
theorem run_length_general (c : Nat) (hc : 0 < c) (pre p : List Byte)
    (qs : List (List Byte)) (tail : List Byte)
    (hp : p.length = c) (hqs : ∀ q ∈ qs, q.length = c) (ht : tail.length < c) :
    ∀ (fuel j : Nat), j ≤ 254 → j ≤ qs.length → 255 ≤ fuel + j →
      run_length fuel (pre ++ (p :: qs).flatten ++ tail) c pre.length (j + 1) =
          Outcome.ok (j + 1 + spanRun p (254 - j) (qs.drop j)) ∨
        (tail ≠ [] ∧
          run_length fuel (pre ++ (p :: qs).flatten ++ tail) c pre.length (j + 1) =
            Outcome.outOfBounds) := by
  have hlen : (pre ++ (p :: qs).flatten ++ tail).length =
      pre.length + c + qs.length * c + tail.length := by
    simp only [List.length_append, List.flatten_cons, hp,
      length_flatten_of_uniform c qs hqs]
    omega
  intro fuel
  induction fuel with
  | zero => intro j h1 _ h3; omega
  | succ fuel ih =>
    intro j h1 h2 h3
    by_cases hj : j < qs.length
    · have hmul : (j + 1) * c ≤ qs.length * c := Nat.mul_le_mul_right c hj
      have hlt : pre.length + (j + 1) * c < pre.length + c + qs.length * c + tail.length := by
        omega
      obtain ⟨q, rest, hdrop⟩ : ∃ q rest, qs.drop j = q :: rest := by
        cases h : qs.drop j with
        | nil =>
          have := congrArg List.length h
          simp at this
          omega
        | cons q rest => exact ⟨q, rest, rfl⟩
      have hq : q.length = c := by
        apply hqs
        have : q ∈ qs.drop j := by rw [hdrop]; exact List.mem_cons_self _ _
        exact List.mem_of_mem_drop this
      have htl : (qs.take j).flatten.length = j * c := by
        rw [length_flatten_of_uniform c (qs.take j)
          (fun r hr => hqs r (List.mem_of_mem_take hr))]
        rw [List.length_take, Nat.min_eq_left (by omega)]
      have hsplit : qs.flatten = (qs.take j).flatten ++ (q ++ rest.flatten) := by
        conv_lhs => rw [← List.take_append_drop j qs, hdrop]
        rw [List.flatten_append, List.flatten_cons]
      have himg : pre ++ (p :: qs).flatten ++ tail =
          (pre ++ p ++ (qs.take j).flatten) ++ q ++ (rest.flatten ++ tail) := by
        rw [List.flatten_cons, hsplit]
        simp only [List.append_assoc]
      have hw1 : ((pre ++ (p :: qs).flatten ++ tail).drop pre.length).take c = p := by
        have := window_eq pre p (qs.flatten ++ tail) pre.length c rfl hp
        simpa [List.flatten_cons, List.append_assoc] using this
      have hw2 : ((pre ++ (p :: qs).flatten ++ tail).drop
          (pre.length + (j + 1) * c)).take c = q := by
        rw [himg]
        apply window_eq _ q _ _ c _ hq
        simp only [List.length_append, hp, htl]
        rw [Nat.succ_mul]; omega
      have hmem : memcmp (pre ++ (p :: qs).flatten ++ tail) pre.length
          (pre.length + (j + 1) * c) c = Outcome.ok (decide (p = q)) := by
        unfold memcmp
        rw [if_pos, hw1, hw2]
        rw [hlen]
        constructor <;> omega
      by_cases hpq : p = q
      · subst hpq
        by_cases h255 : j + 1 < 255
        · have hstep : run_length (fuel + 1) (pre ++ (p :: qs).flatten ++ tail) c
              pre.length (j + 1) =
              run_length fuel (pre ++ (p :: qs).flatten ++ tail) c pre.length (j + 1 + 1) := by
            rw [run_length, hlen, if_pos hlt, hmem]
            simp only [decide_True]
            rw [if_pos h255]
          have hd : qs.drop (j + 1) = rest := by
            rw [← List.drop_drop 1 j qs, hdrop]; rfl
          have hcap : 254 - j = (254 - (j + 1)) + 1 := by omega
          have hval : j + 1 + spanRun p (254 - j) (qs.drop j) =
              j + 1 + 1 + spanRun p (254 - (j + 1)) (qs.drop (j + 1)) := by
            rw [hd, hdrop, hcap, spanRun, if_pos rfl]
            omega
          rw [hstep, hval]
          exact ih (j + 1) (by omega) (by omega) (by omega)
        · left
          rw [run_length, hlen, if_pos hlt, hmem]
          simp only [decide_True]
          rw [if_neg h255]
          have : 254 - j = 0 := by omega
          rw [this]
          simp [spanRun]
      · left
        rw [run_length, hlen, if_pos hlt, hmem]
        simp only [hpq, decide_False]
        rw [hdrop]
        have : spanRun p (254 - j) (q :: rest) = 0 := by
          cases 254 - j with
          | zero => rfl
          | succ n => simp [spanRun, Ne.symm hpq]
        rw [this]
    · have hjeq : j = qs.length := by omega
      by_cases htail : tail = []
      · left
        have hnlt : ¬ pre.length + (j + 1) * c <
            pre.length + c + qs.length * c + tail.length := by
          rw [hjeq, Nat.succ_mul, htail, List.length_nil]; omega
        rw [run_length, hlen, if_neg hnlt]
        have : qs.drop j = [] := by rw [hjeq]; exact List.drop_length qs
        rw [this, spanRun_nil]
      · right
        refine ⟨htail, ?_⟩
        have htpos : 0 < tail.length := List.length_pos.mpr htail
        have hlt : pre.length + (j + 1) * c <
            pre.length + c + qs.length * c + tail.length := by
          rw [hjeq, Nat.succ_mul]; omega
        have hmem : memcmp (pre ++ (p :: qs).flatten ++ tail) pre.length
            (pre.length + (j + 1) * c) c = Outcome.outOfBounds := by
          unfold memcmp
          rw [if_neg]
          rw [hlen, hjeq, Nat.succ_mul]
          omega
        rw [run_length, hlen, if_pos hlt, hmem]

/-- The inner loop on a well-formed buffer. -/
theorem run_length_spec (c : Nat) (hc : 0 < c) (pre p : List Byte) (qs : List (List Byte))
    (hp : p.length = c) (hqs : ∀ q ∈ qs, q.length = c)
    (fuel j : Nat) (h1 : j ≤ 254) (h2 : j ≤ qs.length) (h3 : 255 ≤ fuel + j) :
    run_length fuel (pre ++ (p :: qs).flatten) c pre.length (j + 1) =
      Outcome.ok (j + 1 + spanRun p (254 - j) (qs.drop j)) := by
  have := run_length_general c hc pre p qs [] hp hqs (by simpa using hc) fuel j h1 h2 h3
  simp only [List.append_nil, ne_eq, not_true_eq_false, false_and, or_false] at this
  exact this

/-- One iteration of the outer loop, once the inner loop has returned: the record
`count :: p` is appended and the index moves to the first pixel after the run. -/
theorem compress_loop_step (c : Nat) (pre p : List Byte) (qs : List (List Byte))
    (tail out : List Byte) (hp : p.length = c) (hc : 0 < c)
    (hqs : ∀ q ∈ qs, q.length = c) (f : Nat)
    (hrun : run_length f (pre ++ (p :: qs).flatten ++ tail) c pre.length 1 =
      Outcome.ok (1 + spanRun p 254 qs)) :
    compress_loop (f + 1) (pre ++ (p :: qs).flatten ++ tail) c pre.length out =
      compress_loop f
        ((pre ++ p ++ (qs.take (spanRun p 254 qs)).flatten) ++
          (qs.drop (spanRun p 254 qs)).flatten ++ tail) c
        (pre ++ p ++ (qs.take (spanRun p 254 qs)).flatten).length
        (out ++ (toByte (spanRun p 254 qs + 1) :: p)) := by
  have hk := spanRun_le_length p 254 qs
  have hilt : pre.length < (pre ++ (p :: qs).flatten ++ tail).length := by
    simp only [List.length_append, List.flatten_cons, hp]; omega
  have hpush : push_pixel (pre ++ (p :: qs).flatten ++ tail) pre.length c 0
      (out ++ [toByte (1 + spanRun p 254 qs)]) =
      Outcome.ok (out ++ [toByte (1 + spanRun p 254 qs)] ++ p) := by
    rw [push_pixel_ok _ _ c 0 _ (by
      simp only [List.length_append, List.flatten_cons, hp]; omega)]
    have := window_eq pre p (qs.flatten ++ tail) pre.length c rfl hp
    simp only [List.flatten_cons, Nat.add_zero]
    rw [List.append_assoc pre (p ++ qs.flatten) tail, List.append_assoc p qs.flatten tail,
      ← List.append_assoc pre p (qs.flatten ++ tail), this]
  rw [compress_loop, if_pos hilt, hrun]
  simp only
  rw [hpush]
  simp only
  have htl : (qs.take (spanRun p 254 qs)).flatten.length = spanRun p 254 qs * c := by
    rw [length_flatten_of_uniform c _ (fun r hr => hqs r (List.mem_of_mem_take hr))]
    rw [List.length_take, Nat.min_eq_left hk]
  have himg : pre ++ (p :: qs).flatten ++ tail =
      (pre ++ p ++ (qs.take (spanRun p 254 qs)).flatten) ++
        (qs.drop (spanRun p 254 qs)).flatten ++ tail := by
    have hsplit : qs.flatten = (qs.take (spanRun p 254 qs)).flatten ++
        (qs.drop (spanRun p 254 qs)).flatten := by
      rw [← List.flatten_append, List.take_append_drop]
    rw [List.flatten_cons, hsplit]
    simp only [List.append_assoc]
  have hidx : pre.length + (1 + spanRun p 254 qs - 1) * c + c =
      (pre ++ p ++ (qs.take (spanRun p 254 qs)).flatten).length := by
    simp only [List.length_append, hp, htl]
    have : 1 + spanRun p 254 qs - 1 = spanRun p 254 qs := by omega
    rw [this]; omega
  rw [hidx, himg]
  simp [Nat.add_comm 1, List.append_assoc]

/-- The outer loop on a well-formed buffer: entered at a pixel boundary with the
pixels `ps` still to scan, it returns the emitted bytes followed by the records of the
greedy scan of `ps`. -/
theorem compress_loop_spec (c : Nat) (hc : 0 < c) :
    ∀ (n : Nat) (ps : List (List Byte)), (∀ p ∈ ps, p.length = c) → ps.length ≤ n →
      ∀ (pre out : List Byte) (fuel : Nat), ps.length + 256 ≤ fuel →
        compress_loop fuel (pre ++ ps.flatten) c pre.length out =
          Outcome.ok (out ++ (runs n ps).flatten) := by
  intro n
  induction n with
  | zero =>
    intro ps _ hlen pre out fuel hfuel
    have hnil : ps = [] := List.length_eq_zero.mp (by omega)
    subst hnil
    obtain ⟨f, rfl⟩ : ∃ f, fuel = f + 1 := ⟨fuel - 1, by omega⟩
    simp [compress_loop, runs]
  | succ n ih =>
    intro ps hps hlen pre out fuel hfuel
    obtain ⟨f, rfl⟩ : ∃ f, fuel = f + 1 := ⟨fuel - 1, by omega⟩
    cases ps with
    | nil => simp [compress_loop, runs]
    | cons p qs =>
      have hp : p.length = c := hps p (List.mem_cons_self _ _)
      have hqs : ∀ q ∈ qs, q.length = c := fun q hq => hps q (List.mem_cons_of_mem _ hq)
      have hk := spanRun_le_length p 254 qs
      have hrun := run_length_spec c hc pre p qs hp hqs f 0 (by omega) (by omega)
        (by simp only [List.length_cons] at hfuel; omega)
      simp only [Nat.zero_add, Nat.sub_zero, List.drop_zero] at hrun
      have hstep := compress_loop_step c pre p qs [] out hp hc hqs f (by simpa using hrun)
      simp only [List.append_nil] at hstep
      rw [hstep]
      rw [ih (qs.drop (spanRun p 254 qs)) (fun r hr => hqs r (List.mem_of_mem_drop hr))
        (by simp only [List.length_drop, List.length_cons] at *; omega) _ _ f
        (by simp only [List.length_drop, List.length_cons] at *; omega)]
      simp [runs, List.append_assoc]

theorem chunked_flatten (n : Nat) (hn : 0 < n) :
    ∀ (rs : List (List Byte)) (fuel : Nat), (∀ r ∈ rs, r.length = n) → rs.length ≤ fuel →
      chunked n fuel rs.flatten = rs := by
  intro rs
  induction rs with
  | nil => intro fuel _ _; cases fuel <;> simp [chunked]
  | cons r rs ih =>
    intro fuel h hlen
    obtain ⟨f, rfl⟩ : ∃ f, fuel = f + 1 := ⟨fuel - 1, by
      simp only [List.length_cons] at hlen; omega⟩
    have hr : r.length = n := h r (List.mem_cons_self _ _)
    have hne : (r :: rs).flatten ≠ [] := by
      intro h0
      have := congrArg List.length h0
      simp only [List.flatten_cons, List.length_append, List.length_nil, hr] at this
      omega
    have ht : (r ++ rs.flatten).take n = r := by rw [← hr, List.take_left]
    have hd : (r ++ rs.flatten).drop n = rs.flatten := by rw [← hr, List.drop_left]
    rw [chunked, if_neg hne, List.flatten_cons, ht, hd]
    rw [ih f (fun q hq => h q (List.mem_cons_of_mem _ hq))
      (by simp only [List.length_cons] at hlen; omega)]

theorem records_flatten (c : Nat) (rs : List (List Byte)) (h : ∀ r ∈ rs, r.length = 1 + c) :
    records c rs.flatten = rs := by
  unfold records
  apply chunked_flatten (1 + c) (by omega) rs _ h
  rw [length_flatten_of_uniform (1 + c) rs h]
  exact Nat.le_mul_of_pos_right _ (by omega)

/-! ## The loop of `rle_decompress` on complete records -/

/-- Complete records at the current offset are expanded one per iteration, whatever
follows them in the stream. -/
theorem decompress_loop_complete (c : Nat) :
    ∀ (rs : List (List Byte)), (∀ r ∈ rs, r.length = 1 + c) →
      ∀ (pre post out : List Byte) (fuel : Nat),
        decompress_loop (fuel + rs.length) (pre ++ rs.flatten ++ post) c pre.length out =
          decompress_loop fuel (pre ++ rs.flatten ++ post) c (pre ++ rs.flatten).length
            (out ++ (rs.map expand_record).flatten) := by
  intro rs
  induction rs with
  | nil => intro _ pre post out fuel; simp
  | cons r rs ih =>
    intro h pre post out fuel
    have hr : r.length = 1 + c := h r (List.mem_cons_self _ _)
    cases r with
    | nil => simp at hr; omega
    | cons cnt px =>
      have hpx : px.length = c := by simp only [List.length_cons] at hr; omega
      have himg : pre ++ ((cnt :: px) :: rs).flatten ++ post =
          (pre ++ (cnt :: px)) ++ rs.flatten ++ post := by
        simp [List.flatten_cons, List.append_assoc]
      have hget : (pre ++ ((cnt :: px) :: rs).flatten ++ post)[pre.length]? = some cnt := by
        rw [List.append_assoc, List.getElem?_append_right (Nat.le_refl _)]
        simp
      have hwin : ((pre ++ ((cnt :: px) :: rs).flatten ++ post).drop (pre.length + 1)).take c
          = px := by
        have := window_eq (pre ++ [cnt]) px (rs.flatten ++ post) (pre.length + 1) c
          (by simp) hpx
        simpa [List.flatten_cons, List.append_assoc] using this
      have hfuel : fuel + ((cnt :: px) :: rs).length = (fuel + rs.length) + 1 := by
        simp only [List.length_cons]; omega
      rw [hfuel, decompress_loop, hget]
      simp only
      rw [repeat_pixel_ok _ _ _ (by
        simp only [List.length_append, List.flatten_cons, List.length_cons, hpx]; omega)]
      simp only
      rw [hwin]
      have hidx : pre.length + (c + 1) = (pre ++ (cnt :: px)).length := by
        simp only [List.length_append, List.length_cons, hpx]
      rw [hidx, himg]
      rw [ih (fun q hq => h q (List.mem_cons_of_mem _ hq))]
      simp [expand_record, record_count, record_pixel, List.append_assoc]

/-- The loop of `rle_decompress` on a stream of complete records. -/
theorem decompress_loop_spec (c : Nat) (rs : List (List Byte))
    (h : ∀ r ∈ rs, r.length = 1 + c) (fuel : Nat) (hfuel : rs.length < fuel) :
    decompress_loop fuel rs.flatten c 0 [] =
      Outcome.ok ((rs.map expand_record).flatten) := by
  obtain ⟨f, rfl⟩ : ∃ f, fuel = (f + 1) + rs.length := ⟨fuel - rs.length - 1, by omega⟩
  have := decompress_loop_complete c rs h [] [] [] (f + 1)
  simp only [List.nil_append, List.append_nil, List.length_nil] at this
  rw [this, decompress_loop, List.getElem?_eq_none (Nat.le_refl _)]

/-! ## Facts about the records of the greedy scan -/

theorem length_le_flatten_length (n : Nat) (hn : 0 < n) (ps : List (List Byte))
    (h : ∀ p ∈ ps, p.length = n) : ps.length ≤ ps.flatten.length := by
  rw [length_flatten_of_uniform n ps h]
  exact Nat.le_mul_of_pos_right _ hn

theorem rle_compress_runs (c : Nat) (hc : 0 < c) (ps : List (List Byte))
    (hps : ∀ p ∈ ps, p.length = c) (fuel : Nat) (hfuel : ps.flatten.length + 256 ≤ fuel) :
    rle_compress fuel ps.flatten c = Outcome.ok (runs ps.length ps).flatten := by
  have hle := length_le_flatten_length c hc ps hps
  have := compress_loop_spec c hc ps.length ps hps (Nat.le_refl _) [] [] fuel (by omega)
  simpa [rle_compress] using this

theorem rle_decompress_records (c : Nat) (rs : List (List Byte))
    (h : ∀ r ∈ rs, r.length = 1 + c) (fuel : Nat) (hfuel : rs.flatten.length < fuel) :
    rle_decompress fuel rs.flatten c = Outcome.ok ((rs.map expand_record).flatten) := by
  have hle := length_le_flatten_length (1 + c) (by omega) rs h
  exact decompress_loop_spec c rs h fuel (by omega)

/-- C4 (decode against a reference definition): for every `c ≥ 1` and every stream `s`
whose length is a multiple of `1 + c`, `rle_decompress` returns (with any fuel above
`|s|`) the concatenation, in stream order, over the `(1 + c)`-byte records of `s` of the
record's pixel repeated `count` times. -/
theorem decode_matches_reference (c : Nat) (s : List Byte) (_hc : 1 ≤ c)
    (hs : s.length % (1 + c) = 0) (fuel : Nat) (hfuel : s.length < fuel) :
    rle_decompress fuel s c = Outcome.ok (decode_reference c s) := by
  obtain ⟨rs, hrs, _, rfl⟩ := exists_pixels_of_mod (1 + c) s hs
  rw [rle_decompress_records c rs hrs fuel hfuel, decode_reference, records_flatten c rs hrs]

/-- Witness of `decode_matches_reference` on a two-channel stream holding a record with
count 2, one with count 0 and one with count 1. -/
theorem decode_matches_reference_witness :
    rle_decompress 10 [2, 7, 8, 0, 1, 1, 1, 3, 4] 2 = Outcome.ok [7, 8, 7, 8, 3, 4] ∧
      decode_reference 2 [2, 7, 8, 0, 1, 1, 1, 3, 4] = [7, 8, 7, 8, 3, 4] :=
  ⟨(decode_matches_reference 2 [2, 7, 8, 0, 1, 1, 1, 3, 4] (by decide) (by decide) 10
      (by decide)).trans (congrArg Outcome.ok (by decide)), by decide⟩

/-- C8 (end-to-end example): with `channels = 1`, `rle_compress [5,5,5,9,9,1]` returns
exactly the 6-byte stream `[3,5,2,9,1,1]`, and `rle_decompress [3,5,2,9,1,1]` returns
exactly `[5,5,5,9,9,1]`. -/
theorem end_to_end_example :
    (∀ fuel, 262 ≤ fuel →
      rle_compress fuel [5, 5, 5, 9, 9, 1] 1 = Outcome.ok [3, 5, 2, 9, 1, 1]) ∧
    ([3, 5, 2, 9, 1, 1] : List Byte).length = 6 ∧
    (∀ fuel, 6 < fuel →
      rle_decompress fuel [3, 5, 2, 9, 1, 1] 1 = Outcome.ok [5, 5, 5, 9, 9, 1]) := by
  refine ⟨?_, rfl, ?_⟩
  · intro fuel hfuel
    exact (rle_compress_runs 1 (by decide) [[5], [5], [5], [9], [9], [1]] (by decide) fuel
      hfuel).trans (by decide)
  · intro fuel hfuel
    exact (rle_decompress_records 1 [[3, 5], [2, 9], [1, 1]] (by decide) fuel hfuel).trans
      (by decide)

/-- Witness of `end_to_end_example`: both loops evaluated with the least fuel of the
statement. -/
theorem end_to_end_example_witness :
    rle_compress 262 [5, 5, 5, 9, 9, 1] 1 = Outcome.ok [3, 5, 2, 9, 1, 1] ∧
      rle_decompress 7 [3, 5, 2, 9, 1, 1] 1 = Outcome.ok [5, 5, 5, 9, 9, 1] :=
  ⟨end_to_end_example.1 262 (by decide), end_to_end_example.2.2 7 (by decide)⟩

/-! ## Inputs outside the contract: truncated streams, `channels = 0`, ragged buffers -/

/-- C12 (empty input): for every `c ≥ 1`, `rle_compress` of the empty byte sequence
returns the empty stream and `rle_decompress` of the empty stream returns the empty
byte sequence (one unit of fuel, the loop test, is enough). -/
theorem empty_input (c : Nat) (_hc : 1 ≤ c) :
    (∀ fuel, 1 ≤ fuel → rle_compress fuel [] c = Outcome.ok []) ∧
    (∀ fuel, 1 ≤ fuel → rle_decompress fuel [] c = Outcome.ok []) := by
  constructor
  · intro fuel hfuel
    obtain ⟨f, rfl⟩ : ∃ f, fuel = f + 1 := ⟨fuel - 1, by omega⟩
    rfl
  · intro fuel hfuel
    obtain ⟨f, rfl⟩ : ∃ f, fuel = f + 1 := ⟨fuel - 1, by omega⟩
    rfl

/-- Witness of `empty_input` for three channels. -/
theorem empty_input_witness :
    rle_compress 1 [] 3 = Outcome.ok [] ∧ rle_decompress 1 [] 3 = Outcome.ok [] :=
  ⟨(empty_input 3 (by decide)).1 1 (by decide), (empty_input 3 (by decide)).2 1 (by decide)⟩

/-! ## Greedy runs and size of the stream -/

/-- C20 (zero-count records are accepted by the decoder): for every `c ≥ 1`, (a) in a
stream of complete `(1 + c)`-byte records a record whose count byte is 0 is not
rejected and contributes no bytes: the decoder returns the same buffer as on the stream
without that record; (b) `rle_decompress` is not injective: with `c = 1` the streams
`[0,7]` and `[]` both decode to the empty buffer; (c) re-encoding a decoded stream need
not give it back: `rle_compress` of the decoding of `[0,7]` is `[]`. -/
theorem zero_count_records (c : Nat) (_hc : 1 ≤ c) :
    (∀ (rs1 rs2 : List (List Byte)) (px : List Byte),
      (∀ r ∈ rs1, r.length = 1 + c) → (∀ r ∈ rs2, r.length = 1 + c) → px.length = c →
      ∃ out : List Byte,
        (∀ fuel, (rs1.flatten ++ (0 :: px) ++ rs2.flatten).length < fuel →
          rle_decompress fuel (rs1.flatten ++ (0 :: px) ++ rs2.flatten) c = Outcome.ok out) ∧
        (∀ fuel, (rs1.flatten ++ rs2.flatten).length < fuel →
          rle_decompress fuel (rs1.flatten ++ rs2.flatten) c = Outcome.ok out)) ∧
    (rle_decompress 2 [0, 7] 1 = Outcome.ok [] ∧ rle_decompress 1 [] 1 = Outcome.ok [] ∧
      ([0, 7] : List Byte) ≠ []) ∧
    (rle_compress 1 [] 1 = Outcome.ok [] ∧ ([] : List Byte) ≠ [0, 7]) := by
  refine ⟨?_, by decide, by decide⟩
  intro rs1 rs2 px h1 h2 hpx
  have h12 : ∀ r ∈ rs1 ++ rs2, r.length = 1 + c := by
    intro r hr
    rcases List.mem_append.mp hr with h | h
    · exact h1 r h
    · exact h2 r h
  have h102 : ∀ r ∈ rs1 ++ [(0 : Byte) :: px] ++ rs2, r.length = 1 + c := by
    intro r hr
    simp only [List.mem_append, List.mem_singleton] at hr
    rcases hr with (h | h) | h
    · exact h1 r h
    · subst h; simp only [List.length_cons, hpx]; omega
    · exact h2 r h
  have hfl : rs1.flatten ++ (0 :: px) ++ rs2.flatten =
      (rs1 ++ [(0 : Byte) :: px] ++ rs2).flatten := by
    simp [List.flatten_append]
  have hfl2 : rs1.flatten ++ rs2.flatten = (rs1 ++ rs2).flatten := by
    simp [List.flatten_append]
  have hexp : ((rs1 ++ [(0 : Byte) :: px] ++ rs2).map expand_record).flatten =
      ((rs1 ++ rs2).map expand_record).flatten := by
    simp [List.flatten_append, expand_record, record_count]
  refine ⟨((rs1 ++ rs2).map expand_record).flatten, ?_, ?_⟩
  · intro fuel hfuel
    rw [hfl] at hfuel ⊢
    rw [rle_decompress_records c _ h102 fuel hfuel, hexp]
  · intro fuel hfuel
    rw [hfl2] at hfuel ⊢
    exact rle_decompress_records c _ h12 fuel hfuel

/-- Witness of `zero_count_records`: a two-channel record with count 0 between two
records with counts 2 and 1 changes nothing in the decoded buffer. -/
theorem zero_count_records_witness :
    ∃ out : List Byte,
      (∀ fuel, (([[2, 1, 2]] : List (List Byte)).flatten ++ (0 :: [9, 9]) ++
          ([[1, 3, 4]] : List (List Byte)).flatten).length < fuel →
        rle_decompress fuel (([[2, 1, 2]] : List (List Byte)).flatten ++ (0 :: [9, 9]) ++
          ([[1, 3, 4]] : List (List Byte)).flatten) 2 = Outcome.ok out) ∧
      (∀ fuel, (([[2, 1, 2]] : List (List Byte)).flatten ++
          ([[1, 3, 4]] : List (List Byte)).flatten).length < fuel →
        rle_decompress fuel (([[2, 1, 2]] : List (List Byte)).flatten ++
          ([[1, 3, 4]] : List (List Byte)).flatten) 2 = Outcome.ok out) :=
  (zero_count_records 2 (by decide)).1 [[2, 1, 2]] [[1, 3, 4]] [9, 9] (by decide) (by decide)
    rfl

/-! ## The statistics loops -/

theorem histogram_loop_eq (image : List Byte) :
    ∀ (n i : Nat) (h : Byte → Nat), i + n ≤ image.length →
      histogram_loop image n i h =
        some (fun v => h v + ((image.drop i).take n).count v) := by
  intro n
  induction n with
  | zero => intro i h _; simp [histogram_loop]
  | succ n ih =>
    intro i h hle
    have hlt : i < image.length := by omega
    rw [histogram_loop, List.getElem?_eq_getElem hlt]
    simp only
    rw [ih (i + 1) _ (by omega)]
    congr 1
    funext v
    rw [List.drop_eq_getElem_cons hlt, List.take_succ_cons, List.count_cons]
    by_cases hv : v = image[i]
    · subst hv
      simp only [Function.update_same, beq_self_eq_true, if_true]
      omega
    · have hne : (image[i] == v) = false := by
        simp only [beq_eq_false_iff_ne, ne_eq]
        exact fun h0 => hv h0.symm
      simp only [Function.update_noteq hv, hne, Bool.false_eq_true, if_false]
      omega

theorem histogram_loop_full (d : List Byte) :
    histogram_loop d d.length 0 (fun _ => 0) = some (fun v => d.count v) := by
  rw [histogram_loop_eq d d.length 0 _ (by omega)]
  simp

theorem entropy_loop_skip (h : Byte → Nat) (total : Nat) :
    ∀ (l : List Byte) (acc : ℝ), (∀ i ∈ l, h i = 0) →
      entropy_loop h total l acc = StatResult.value acc := by
  intro l
  induction l with
  | nil => intro acc _; rfl
  | cons i rest ih =>
    intro acc hz
    rw [entropy_loop, if_pos (hz i (List.mem_cons_self _ _))]
    exact ih acc (fun j hj => hz j (List.mem_cons_of_mem _ hj))

theorem average_loop_skip (h : Byte → Nat) (total : Nat) :
    ∀ (l : List Byte) (acc : ℝ), (∀ i ∈ l, h i = 0) →
      average_loop h total l acc = StatResult.value acc := by
  intro l
  induction l with
  | nil => intro acc _; rfl
  | cons i rest ih =>
    intro acc hz
    rw [average_loop, if_pos (hz i (List.mem_cons_self _ _))]
    exact ih acc (fun j hj => hz j (List.mem_cons_of_mem _ hj))

theorem entropy_loop_eq (h : Byte → Nat) (total : Nat) (ht : total ≠ 0) :
    ∀ (l : List Byte) (acc : ℝ),
      entropy_loop h total l acc = StatResult.value (acc -
        (l.map (fun i => if h i = 0 then (0 : ℝ) else
          probability (h i) total * Real.logb 2 (probability (h i) total))).sum) := by
  intro l
  induction l with
  | nil => intro acc; simp [entropy_loop]
  | cons i rest ih =>
    intro acc
    rw [entropy_loop]
    by_cases hz : h i = 0
    · rw [if_pos hz, ih]
      simp [hz]
    · rw [if_neg hz, if_neg ht, ih]
      simp only [List.map_cons, List.sum_cons, if_neg hz]
      congr 1
      ring

theorem probability_pos (count total : Nat) (hc : count ≠ 0) (ht : total ≠ 0) :
    0 < probability count total := by
  unfold probability
  have h1 : (0 : ℝ) < count := by exact_mod_cast Nat.pos_of_ne_zero hc
  have h2 : (0 : ℝ) < total := by exact_mod_cast Nat.pos_of_ne_zero ht
  exact div_pos h1 h2

theorem average_loop_eq (h : Byte → Nat) (total : Nat) (ht : total ≠ 0) :
    ∀ (l : List Byte) (acc : ℝ),
      average_loop h total l acc = StatResult.value (acc +
        (l.map (fun i => if h i = 0 then (0 : ℝ) else
          probability (h i) total *
            (1 + Real.logb 2 (1 / probability (h i) total)))).sum) := by
  intro l
  induction l with
  | nil => intro acc; simp [average_loop]
  | cons i rest ih =>
    intro acc
    rw [average_loop]
    by_cases hz : h i = 0
    · rw [if_pos hz, ih]
      simp [hz]
    · rw [if_neg hz, if_neg ht, if_neg (ne_of_gt (probability_pos _ _ hz ht)), ih]
      simp only [List.map_cons, List.sum_cons, if_neg hz]
      congr 1
      ring

/-! ## The histogram as relative frequencies -/

theorem sum_count_eq_length_of_fintype {α : Type} [Fintype α] [DecidableEq α]
    (d : List α) : ∑ v : α, d.count v = d.length := by
  induction d with
  | nil => simp
  | cons a l ih =>
    simp only [List.count_cons, Finset.sum_add_distrib, ih, List.length_cons]
    congr 1
    simp [beq_iff_eq]

theorem sum_count_eq_length (d : List Byte) : ∑ v : Byte, d.count v = d.length :=
  sum_count_eq_length_of_fintype d

theorem sum_probability_eq_one (d : List Byte) (hne : d ≠ []) :
    ∑ v ∈ Finset.univ.filter (fun v : Byte => 0 < d.count v),
      ((d.count v : ℝ) / (d.length : ℝ)) = 1 := by
  have hN : (d.length : ℝ) ≠ 0 := by
    have : 0 < d.length := List.length_pos.mpr hne
    exact_mod_cast Nat.pos_iff_ne_zero.mp this
  rw [← Finset.sum_div, Finset.sum_filter]
  have : (∑ v : Byte, if 0 < d.count v then (d.count v : ℝ) else 0) =
      ∑ v : Byte, (d.count v : ℝ) := by
    apply Finset.sum_congr rfl
    intro v _
    split
    · rfl
    · rename_i h
      have : d.count v = 0 := by omega
      simp [this]
  rw [this, ← Nat.cast_sum, sum_count_eq_length]
  exact div_self hN

/-- On a non-empty buffer read in full, `calculate_entropy` returns the reference
entropy and `calculate_average_code_length` returns that value plus one. -/
theorem statistics_values (d : List Byte) (width height channels : Nat) (hne : d ≠ [])
    (hsz : width * height * channels = d.length) :
    calculate_entropy d width height channels = StatResult.value (entropy_reference d) ∧
      calculate_average_code_length d width height channels =
        StatResult.value (entropy_reference d + 1) := by
  have hlen : d.length ≠ 0 := by
    have : 0 < d.length := List.length_pos.mpr hne
    omega
  have hE : ∀ v : Byte,
      (if d.count v = 0 then (0 : ℝ) else
        probability (d.count v) d.length * Real.logb 2 (probability (d.count v) d.length)) =
      if 0 < d.count v then
        ((d.count v : ℝ) / (d.length : ℝ)) * Real.logb 2 ((d.count v : ℝ) / (d.length : ℝ))
      else 0 := by
    intro v
    by_cases h : d.count v = 0
    · rw [if_pos h, if_neg (by omega)]
    · rw [if_neg h, if_pos (by omega)]
      rfl
  have hA : ∀ v : Byte,
      (if d.count v = 0 then (0 : ℝ) else
        probability (d.count v) d.length *
          (1 + Real.logb 2 (1 / probability (d.count v) d.length))) =
      (if 0 < d.count v then (d.count v : ℝ) / (d.length : ℝ) else 0) -
      (if 0 < d.count v then
        ((d.count v : ℝ) / (d.length : ℝ)) * Real.logb 2 ((d.count v : ℝ) / (d.length : ℝ))
      else 0) := by
    intro v
    by_cases h : d.count v = 0
    · rw [if_pos h, if_neg (by omega), if_neg (by omega)]
      simp
    · rw [if_neg h, if_pos (by omega), if_pos (by omega)]
      unfold probability
      rw [one_div, Real.logb_inv]
      ring
  constructor
  · unfold calculate_entropy
    rw [hsz, histogram_loop_full]
    simp only
    rw [entropy_loop_eq _ _ hlen, ← Fin.sum_univ_def]
    congr 1
    unfold entropy_reference
    rw [Finset.sum_filter, Finset.sum_congr rfl (fun v _ => hE v)]
    ring
  · unfold calculate_average_code_length
    rw [hsz, histogram_loop_full]
    simp only
    rw [average_loop_eq _ _ hlen, ← Fin.sum_univ_def]
    congr 1
    unfold entropy_reference
    rw [Finset.sum_congr rfl (fun v _ => hA v), Finset.sum_sub_distrib,
      ← Finset.sum_filter, ← Finset.sum_filter, sum_probability_eq_one d hne]
    ring

theorem statistics_empty (image : List Byte) (width height channels : Nat)
    (h0 : width * height * channels = 0) :
    calculate_entropy image width height channels = StatResult.value 0 ∧
      calculate_average_code_length image width height channels = StatResult.value 0 := by
  constructor
  · unfold calculate_entropy
    rw [h0, histogram_loop]
    exact entropy_loop_skip _ _ _ _ (fun _ _ => rfl)
  · unfold calculate_average_code_length
    rw [h0, histogram_loop]
    exact average_loop_skip _ _ _ _ (fun _ _ => rfl)

/-! ## Entropy and average code length -/

/-- C14 (average code length bound): for every non-empty byte buffer `d` with
`width * height * channels` equal to its length, reading the arithmetic over the real
numbers, both functions return a number and
`calculate_average_code_length(d) ≥ calculate_entropy(d)`. -/
theorem average_code_length_bound (d : List Byte) (width height channels : Nat)
    (hne : d ≠ []) (hsz : width * height * channels = d.length) :
    ∃ e a : ℝ, calculate_entropy d width height channels = StatResult.value e ∧
      calculate_average_code_length d width height channels = StatResult.value a ∧
      e ≤ a := by
  obtain ⟨h1, h2⟩ := statistics_values d width height channels hne hsz
  exact ⟨_, _, h1, h2, by linarith⟩

/-- Witness of `average_code_length_bound` on a 2 x 2 one-channel image. -/
theorem average_code_length_bound_witness :
    ∃ e a : ℝ, calculate_entropy [0, 0, 255, 7] 2 2 1 = StatResult.value e ∧
      calculate_average_code_length [0, 0, 255, 7] 2 2 1 = StatResult.value a ∧
      e ≤ a :=
  average_code_length_bound [0, 0, 255, 7] 2 2 1 (by decide) (by decide)

/-- C15, counterexample: on the zero-length buffer (`width = height = channels = 0`)
both statistics functions return the number 0. -/
theorem empty_statistics_counterexample :
    calculate_entropy [] 0 0 0 = StatResult.value 0 ∧
      calculate_average_code_length [] 0 0 0 = StatResult.value 0 := by
  constructor
  · unfold calculate_entropy
    rw [histogram_loop]
    exact entropy_loop_skip _ _ _ _ (fun _ _ => rfl)
  · unfold calculate_average_code_length
    rw [histogram_loop]
    exact average_loop_skip _ _ _ _ (fun _ _ => rfl)

/-- C15, amended: the source has no empty-input error. Applied to a zero-length buffer
(`width * height * channels = 0`), `calculate_entropy` and
`calculate_average_code_length` both return the number 0. -/
theorem empty_statistics_return_zero (image : List Byte) (width height channels : Nat)
    (h0 : width * height * channels = 0) :
    calculate_entropy image width height channels = StatResult.value 0 ∧
      calculate_average_code_length image width height channels = StatResult.value 0 :=
  statistics_empty image width height channels h0

/-- Witness of `empty_statistics_return_zero`: height 5, three channels, width 0. -/
theorem empty_statistics_return_zero_witness :
    calculate_entropy [] 0 5 3 = StatResult.value 0 ∧
      calculate_average_code_length [] 0 5 3 = StatResult.value 0 :=
  empty_statistics_return_zero [] 0 5 3 (by decide)

/-- C17, counterexample: on the zero-length buffer neither statistics function reaches
a division by zero. -/
theorem unguarded_statistics_counterexample :
    calculate_entropy [] 0 0 0 ≠ StatResult.divisionByZero ∧
      calculate_average_code_length [] 0 0 0 ≠ StatResult.divisionByZero := by
  have h := statistics_empty [] 0 0 0 rfl
  rw [h.1, h.2]
  exact ⟨fun h0 => (by cases h0), fun h0 => (by cases h0)⟩

/-- C17, amended: for a zero-length buffer (`width * height * channels = 0`) the
entropy and average-code-length computations perform no division by zero: every
histogram bucket is 0, so each of the 256 iterations takes `continue`, the division by
the total byte count is not reached and both functions return 0. The division with a
zero divisor is the quotient `entropy / average_code_length` formed in `main`. -/
theorem empty_statistics_no_division (image : List Byte) (width height channels : Nat)
    (h0 : width * height * channels = 0) :
    (∀ (l : List Byte) (acc : ℝ),
      entropy_loop (fun _ => 0) (width * height * channels) l acc = StatResult.value acc ∧
      average_loop (fun _ => 0) (width * height * channels) l acc = StatResult.value acc) ∧
    calculate_entropy image width height channels ≠ StatResult.divisionByZero ∧
    calculate_average_code_length image width height channels ≠ StatResult.divisionByZero ∧
    coding_efficiency image width height channels = StatResult.divisionByZero := by
  have h := statistics_empty image width height channels h0
  refine ⟨fun l acc => ⟨entropy_loop_skip _ _ l acc (fun _ _ => rfl),
    average_loop_skip _ _ l acc (fun _ _ => rfl)⟩, ?_, ?_, ?_⟩
  · rw [h.1]; intro h1; cases h1
  · rw [h.2]; intro h1; cases h1
  · unfold coding_efficiency
    rw [h.1, h.2]
    simp

/-- Witness of `empty_statistics_no_division`: width 4, height 0, one channel. -/
theorem empty_statistics_no_division_witness :
    calculate_entropy [] 4 0 1 ≠ StatResult.divisionByZero ∧
      calculate_average_code_length [] 4 0 1 ≠ StatResult.divisionByZero ∧
      coding_efficiency [] 4 0 1 = StatResult.divisionByZero :=
  (empty_statistics_no_division [] 4 0 1 (by decide)).2

end RleImage
